import Mathlib

/-!
Verification of the Spotify Web API client core of `foo_spotify`.

The development shallowly embeds the identifier model
(`backend/spotify_object.cpp`), the HTTP retry loop and the cache-fronted
fetch operations (`backend/webapi_backend.cpp`).  Strings are modelled as
lists of characters (`Str`), fallible C++ code (functions throwing
`qwr::QwrException`) as `Except`/`Option`-returning functions, and the
network as an explicit oracle supplied to each operation, together with a
log of the requests issued.
-/

namespace Sptf

/-- Strings are modelled as lists of characters. -/
abbrev Str := List Char

/-- Models `input._Starts_with(p)` followed by `input.remove_prefix(p.size())`:
returns `some rest` when `l = p ++ rest`, and `none` when `p` does not start
`l`. -/
def stripLead : Str → Str → Option Str
  | [], s => some s
  | _ :: _, [] => none
  | p :: ps, c :: cs => if p = c then stripLead ps cs else none

/-- Models `qwr::string::Split(input, sep)`: splits at every occurrence of
`sep`, keeping empty segments. -/
def splitOnChar (sep : Char) : Str → List Str
  | [] => [[]]
  | c :: rest =>
    if c = sep then
      [] :: splitOnChar sep rest
    else
      match splitOnChar sep rest with
      | [] => [[c]]
      | s :: ss => (c :: s) :: ss

/-- The `"sptf://"` literal of `spotify_object.cpp`. -/
def schemaLead : Str := "sptf://".toList

/-- The `"https://open.spotify.com/"` literal of `spotify_object.cpp`. -/
def urlLead : Str := "https://open.spotify.com/".toList

/-- A parsed Spotify object: the `{type, id}` pair of `SpotifyObject`. -/
structure SpotifyObject where
  type : Str
  id : Str
deriving DecidableEq, Repr

/-- `IsValidType` of `spotify_object.cpp`. -/
def IsValidType (t : Str) : Bool :=
  t = "track".toList ∨ t = "album".toList ∨ t = "playlist".toList

/-- The error kinds raised by the `SpotifyObject` constructors
(`qwr::QwrException` messages). -/
inductive ParseError
  | invalidUrl
  | invalidUri
  | unsupportedType
  | invalidId
deriving DecidableEq, Repr

/-- The URL branch of `SpotifyObject::SpotifyObject(std::string_view)`:
`rest` is the input with the `https://open.spotify.com/` lead removed; it
must split on `/` into exactly `[type, id]`, the id is taken up to the
first `?` and must be non-empty. -/
def parseUrlRest (rest : Str) : Except ParseError SpotifyObject :=
  match splitOnChar '/' rest with
  | [t, rawId] =>
    if IsValidType t then
      if rawId.takeWhile (fun c => c ≠ '?') = [] then
        .error .invalidId
      else
        .ok ⟨t, rawId.takeWhile (fun c => c ≠ '?')⟩
    else
      .error .unsupportedType
  | _ => .error .invalidUrl

/-- The URI branch of `SpotifyObject::SpotifyObject(std::string_view)`:
the input must split on `:` into exactly `[spotify, type, id]` with a
non-empty id. -/
def parseUriInput (input : Str) : Except ParseError SpotifyObject :=
  match splitOnChar ':' input with
  | [s, t, i] =>
    if s = "spotify".toList then
      if IsValidType t then
        if i = [] then .error .invalidId else .ok ⟨t, i⟩
      else
        .error .unsupportedType
    else
      .error .invalidUri
  | _ => .error .invalidUri

/-- The body of `SpotifyObject::SpotifyObject(std::string_view)` after the
optional `sptf://` strip: the URL branch and the URI branch. -/
def parseCore (input : Str) : Except ParseError SpotifyObject :=
  match stripLead urlLead input with
  | some rest => parseUrlRest rest
  | none => parseUriInput input

/-- `SpotifyObject::SpotifyObject(std::string_view)`: strip the optional
`sptf://` lead, then parse the URL or URI form. -/
def parseSpotifyObject (input : Str) : Except ParseError SpotifyObject :=
  parseCore (match stripLead schemaLead input with
    | some rest => rest
    | none => input)

/-- `SpotifyObject::SpotifyObject(std::string_view type, std::string_view id)`:
only the type is validated. -/
def mkSpotifyObject (type id : Str) : Except ParseError SpotifyObject :=
  if IsValidType type then .ok ⟨type, id⟩ else .error .unsupportedType

/-- `SpotifyObject::ToUri`. -/
def SpotifyObject.toUri (o : SpotifyObject) : Str :=
  "spotify:".toList ++ o.type ++ ':' :: o.id

/-- `SpotifyObject::ToUrl`. -/
def SpotifyObject.toUrl (o : SpotifyObject) : Str :=
  "https://open.spotify.com/".toList ++ o.type ++ '/' :: o.id

/-- `SpotifyObject::ToSchema`. -/
def SpotifyObject.toSchema (o : SpotifyObject) : Str :=
  "sptf://spotify:".toList ++ o.type ++ ':' :: o.id

/-- `SpotifyFilteredTrack::IsValid`. -/
def isFilteredTrackValid (input : Str) (usePurePathOnly : Bool) : Bool :=
  match stripLead schemaLead input with
  | some rest => (stripLead ("spotify:track:".toList) rest).isSome
  | none =>
    if usePurePathOnly then false
    else (stripLead ("spotify:track:".toList) input).isSome

/-! ## HTTP engine: the retry loop of `WebApi_Backend::GetResponse` -/

/-- An HTTP response as seen by the retry loop: its status code and its
headers. -/
structure HttpResponse where
  status : Nat
  headers : List (Str × Str)
deriving DecidableEq, Repr

/-- `response.headers().find(name)` modelled as an association-list lookup. -/
def findHeader (headers : List (Str × Str)) (name : Str) : Option Str :=
  headers.lookup name

/-- Modelled from the spec: `qwr::string::GetNumber<uint32_t>` (an external
helper not present in the sources) parses the whole string as an unsigned
decimal number, failing on an empty string, a non-digit character, or
overflow of `uint32_t`. -/
def getNumberU32 (s : Str) : Option Nat :=
  if s ≠ [] ∧ s.all (fun c => c.isDigit) then
    let n := s.foldl (fun acc c => acc * 10 + (c.toNat - '0'.toNat)) 0
    if n < 2 ^ 32 then some n else none
  else
    none

/-- Outcome of `WebApi_Backend::GetResponse`: either the last HTTP response
or the thrown `qwr::QwrException` (`protocolError`). -/
inductive ReqResult
  | ok (response : HttpResponse)
  | protocolError
deriving DecidableEq, Repr

/-- The observable trace of one `GetResponse` call: its outcome, how many
requests were sent, and the list of sleep durations (in milliseconds). -/
structure ResponseOutcome where
  result : ReqResult
  requests : Nat
  sleeps : List Nat
deriving DecidableEq, Repr

/-- The retry loop of `WebApi_Backend::GetResponse` (`for i < 3`), with the
transport modelled as an oracle `transport : Nat → HttpResponse` giving the
response to the `i`-th request.  `rest` counts the loop iterations still
allowed after the current one (the loop starts with `rest = 2`), `i` is the
index of the current request and `sleeps` accumulates the sleeps performed.
The host abort is modelled as never signalled (`SleepFor` completes). -/
def getResponseGo (transport : Nat → HttpResponse) : Nat → Nat → List Nat → ResponseOutcome
  | 0, i, sleeps =>
    let response := transport i
    if response.status = 429 then
      match findHeader response.headers ("Retry-After".toList) with
      | none => ⟨.protocolError, i + 1, sleeps⟩
      | some v =>
        match getNumberU32 v with
        | none => ⟨.protocolError, i + 1, sleeps⟩
        | some ms => ⟨.ok response, i + 1, sleeps ++ [ms + 1000]⟩
    else
      ⟨.ok response, i + 1, sleeps⟩
  | rest + 1, i, sleeps =>
    let response := transport i
    if response.status = 429 then
      match findHeader response.headers ("Retry-After".toList) with
      | none => ⟨.protocolError, i + 1, sleeps⟩
      | some v =>
        match getNumberU32 v with
        | none => ⟨.protocolError, i + 1, sleeps⟩
        | some ms => getResponseGo transport rest (i + 1) (sleeps ++ [ms + 1000])
    else
      ⟨.ok response, i + 1, sleeps⟩

/-- `WebApi_Backend::GetResponse`: up to 3 attempts. -/
def getResponse (transport : Nat → HttpResponse) : ResponseOutcome :=
  getResponseGo transport 2 0 []

/-! ## Domain objects and the track cache -/

/-- `WebApi_Track`, restricted to the fields the cache and the claims
observe (`id` is the cache key; `name` and `duration_ms` stand for the
payload). -/
structure WebApi_Track where
  id : Str
  name : Str
  durationMs : Nat
deriving DecidableEq, Repr

/-- `WebApi_LocalTrack` (a local playlist entry). -/
structure WebApi_LocalTrack where
  name : Str
deriving DecidableEq, Repr

/-- `WebApi_User`: only the optional `country` field is observed. -/
structure WebApi_User where
  country : Option Str
deriving DecidableEq, Repr

/-- The `track : variant<WebApi_Track, WebApi_LocalTrack>` field of
`WebApi_PlaylistTrack`. -/
inductive PlaylistTrackVariant
  | track (t : WebApi_Track)
  | localTrack (l : WebApi_LocalTrack)
deriving DecidableEq, Repr

/-- `WebApi_PlaylistTrack`. -/
structure WebApi_PlaylistTrack where
  track : PlaylistTrackVariant
deriving DecidableEq, Repr

/-- `WebApi_PagingObject`, restricted to the fields the loop reads: the
decoded `items` and the optional `next` request URI. -/
structure WebApi_PagingObject where
  items : List WebApi_PlaylistTrack
  next : Option Str
deriving DecidableEq, Repr

/-- Modelled from the spec: the per-kind object cache (its implementation
is not among the sources).  Entries are keyed by `value.id` (§4.6 of the
spec); an association list whose most recent insertion shadows older
entries. -/
abbrev TrackCache := List (Str × WebApi_Track)

/-- Modelled from the spec: `IsCached(key)`. -/
def isCached (c : TrackCache) (id : Str) : Bool :=
  (c.lookup id).isSome

/-- Modelled from the spec: `CacheObject(value)`, keyed by `value.id`. -/
def cacheObject (c : TrackCache) (t : WebApi_Track) : TrackCache :=
  (t.id, t) :: c

/-- Modelled from the spec: `CacheObjects(values)`. -/
def cacheObjects (c : TrackCache) (ts : List WebApi_Track) : TrackCache :=
  ts.foldl cacheObject c

/-! ## The Web API backend operations -/

/-- The requests the modelled operations can issue. -/
inductive Request
  | user
  | track (id : Str) (market : Option Str)
  | tracks (ids : List Str)
  | topTracks (artistId : Str) (market : Str)
deriving DecidableEq, Repr

/-- The network oracle: what the Spotify server answers to each request
kind (responses are assumed well-formed; HTTP failures are out of scope of
the cache claims). -/
structure Backend where
  userResp : WebApi_User
  trackResp : Str → Option Str → WebApi_Track
  tracksResp : List Str → List WebApi_Track
  topTracksResp : Str → Str → List WebApi_Track

/-- The mutable state of `WebApi_Backend` the claims observe: the track
cache and the current-user cache. -/
structure BackendState where
  trackCache : TrackCache
  userCache : Option WebApi_User
deriving DecidableEq, Repr

/-- `WebApi_Backend::GetUser`: serve from the user cache, else fetch `me`
and cache the result.  Returns the user, the new state and the requests
issued. -/
def getUser (b : Backend) (st : BackendState) : WebApi_User × BackendState × List Request :=
  match st.userCache with
  | some u => (u, st, [])
  | none => (b.userResp, { st with userCache := some b.userResp }, [Request.user])

/-- `WebApi_Backend::GetTrack(trackId, abort, useRelink)`.  The cached value
is returned only when `useRelink` is false; the fetch appends
`market=<country>` only when relinking and the user profile has a country;
the fetched track is cached only when not relinking. -/
def getTrack (b : Backend) (st : BackendState) (trackId : Str) (useRelink : Bool) :
    WebApi_Track × BackendState × List Request :=
  let fetched :=
    let userStep :=
      if useRelink then
        let (u, st1, reqs1) := getUser b st
        (u.country, st1, reqs1)
      else
        (none, st, [])
    let market := userStep.1
    let t := b.trackResp trackId market
    let st2 :=
      if useRelink then userStep.2.1
      else { userStep.2.1 with trackCache := cacheObject userStep.2.1.trackCache t }
    (t, st2, userStep.2.2 ++ [Request.track trackId market])
  match st.trackCache.lookup trackId with
  | some t => if useRelink then fetched else (t, st, [])
  | none => fetched

/-- One lazily-filtered chunk of `ranges::views::remove_if(IsCached) |
ranges::views::chunk(50)`: consume ids from `l`, dropping the ones cached
in `cache`, until `n` survivors are collected or `l` is exhausted; returns
the chunk and the unconsumed remainder. -/
def takeChunk (cache : TrackCache) : Nat → List Str → List Str × List Str
  | _, [] => ([], [])
  | 0, rest => ([], rest)
  | n + 1, id :: rest =>
    if isCached cache id then
      takeChunk cache (n + 1) rest
    else
      let (c, r) := takeChunk cache n rest
      (id :: c, r)

/-- `(takeChunk cache n l).2` never grows. -/
theorem takeChunk_snd_le (cache : TrackCache) :
    ∀ (n : Nat) (l : List Str), (takeChunk cache n l).2.length ≤ l.length := by
  intro n l
  induction l generalizing n with
  | nil => cases n <;> simp [takeChunk]
  | cons id rest ih =>
    cases n with
    | zero => simp [takeChunk]
    | succ m =>
      simp only [takeChunk]
      by_cases h : isCached cache id
      · simp only [h, if_true]
        exact Nat.le_trans (ih (m + 1)) (Nat.le_succ _)
      · simp only [h, if_false]
        exact Nat.le_trans (ih m) (Nat.le_succ _)

/-- A nonempty chunk consumed at least one element. -/
theorem takeChunk_snd_lt (cache : TrackCache) :
    ∀ (n : Nat) (l : List Str), (takeChunk cache n l).1 ≠ [] →
      (takeChunk cache n l).2.length < l.length := by
  intro n l
  induction l generalizing n with
  | nil => cases n <;> simp [takeChunk]
  | cons id rest ih =>
    cases n with
    | zero => simp [takeChunk]
    | succ m =>
      simp only [takeChunk]
      by_cases h : isCached cache id
      · simp only [h, if_true]
        intro hne
        exact Nat.lt_trans (ih (m + 1) hne) (Nat.lt_succ_self _)
      · simp only [h, if_false]
        intro _
        exact Nat.lt_succ_of_le (takeChunk_snd_le cache m rest)

/-- The chunked fetch loop of `WebApi_Backend::RefreshCacheForTracks`:
pull the next (lazily filtered) chunk of at most 50 uncached ids, issue one
`GET tracks?ids=...` for it, cache the response, repeat. -/
def refreshLoop (b : Backend) (cache : TrackCache) (remaining : List Str)
    (reqs : List Request) : TrackCache × List Request :=
  if hc : (takeChunk cache 50 remaining).1 = [] then
    (cache, reqs)
  else
    refreshLoop b (cacheObjects cache (b.tracksResp (takeChunk cache 50 remaining).1))
      (takeChunk cache 50 remaining).2
      (reqs ++ [Request.tracks (takeChunk cache 50 remaining).1])
termination_by remaining.length
decreasing_by
  exact takeChunk_snd_lt cache 50 remaining hc

/-- The `unordered_set` deduplication of `RefreshCacheForTracks`, modelled
as keeping the first occurrence of each id (the set's iteration order is
unspecified in the source; only the set's membership matters to the
claims). -/
def dedupGo (seen : List Str) : List Str → List Str
  | [] => []
  | id :: rest =>
    if id ∈ seen then dedupGo seen rest else id :: dedupGo (id :: seen) rest

/-- Deduplicate a list of track ids. -/
def dedupIds (ids : List Str) : List Str :=
  dedupGo [] ids

/-- `WebApi_Backend::RefreshCacheForTracks`. -/
def refreshCacheForTracks (b : Backend) (cache : TrackCache) (trackIds : List Str) :
    TrackCache × List Request :=
  refreshLoop b cache (dedupIds trackIds) []

/-- The cache-serving projection of `WebApi_Backend::GetTracks`: look every
requested id up in the cache, in input order; `none` models a failed
`assert( trackCache_.IsCached( id ) )`. -/
def lookupTracks (cache : TrackCache) : List Str → Option (List WebApi_Track)
  | [] => some []
  | id :: rest =>
    match cache.lookup id, lookupTracks cache rest with
    | some t, some ts => some (t :: ts)
    | _, _ => none

/-- `WebApi_Backend::GetTracks`: refresh the cache for the requested ids,
then serve the whole (ordered, possibly duplicated) input list from the
cache. -/
def getTracks (b : Backend) (cache : TrackCache) (ids : List Str) :
    Option (List WebApi_Track) × TrackCache × List Request :=
  let r := refreshCacheForTracks b cache ids
  (lookupTracks r.1 ids, r.1, r.2)

/-- `WebApi_Backend::GetTopTracksForArtist`: fetch the user first, fail when
the profile has no country, else issue exactly one top-tracks request with
`market=<country>` and cache the returned tracks. -/
def getTopTracksForArtist (b : Backend) (st : BackendState) (artistId : Str) :
    Option (List WebApi_Track) × BackendState × List Request :=
  let (u, st1, ureqs) := getUser b st
  match u.country with
  | none => (none, st1, ureqs)
  | some country =>
    let ret := b.topTracksResp artistId country
    (some ret, { st1 with trackCache := cacheObjects st1.trackCache ret },
      ureqs ++ [Request.topTracks artistId country])

/-! ## Pagination: `WebApi_Backend::GetTracksFromPlaylist` -/

/-- The `items` of a page that are real tracks, in page order. -/
def pageTracks (page : WebApi_PagingObject) : List WebApi_Track :=
  page.items.filterMap fun pt =>
    match pt.track with
    | .track t => some t
    | .localTrack _ => none

/-- The `items` of a page that are local tracks, in page order. -/
def pageLocals (page : WebApi_PagingObject) : List WebApi_LocalTrack :=
  page.items.filterMap fun pt =>
    match pt.track with
    | .track _ => none
    | .localTrack l => some l

/-- The first request URI of `GetTracksFromPlaylist`
(`playlists/{id}/tracks` with `limit=100`). -/
def playlistTracksUri (playlistId : Str) : Str :=
  "playlists/".toList ++ playlistId ++ "/tracks?limit=100".toList

/-- The `while(true)` pagination loop: issue the request, accumulate the
page's tracks and local tracks in server order, follow `next` verbatim
until it is null.  `fuel` bounds the number of pages (the C++ loop would
not terminate on a server answering `next` forever); `none` means the fuel
ran out. -/
def playlistLoop (server : Str → WebApi_PagingObject) :
    Nat → Str → List WebApi_Track → List WebApi_LocalTrack → List Str →
    Option (List WebApi_Track × List WebApi_LocalTrack × List Str)
  | 0, _, _, _, _ => none
  | fuel + 1, uri, tracks, locals, reqs =>
    let page := server uri
    match page.next with
    | none => some (tracks ++ pageTracks page, locals ++ pageLocals page, reqs ++ [uri])
    | some nxt =>
      playlistLoop server fuel nxt (tracks ++ pageTracks page)
        (locals ++ pageLocals page) (reqs ++ [uri])

/-- `WebApi_Backend::GetTracksFromPlaylist`: run the pagination loop from
the built URI, then cache all accumulated (non-local) tracks. -/
def getTracksFromPlaylist (server : Str → WebApi_PagingObject) (fuel : Nat)
    (playlistId : Str) (cache : TrackCache) :
    Option ((List WebApi_Track × List WebApi_LocalTrack × List Str) × TrackCache) :=
  match playlistLoop server fuel (playlistTracksUri playlistId) [] [] [] with
  | none => none
  | some r => some (r, cacheObjects cache r.1)

/-- The chain of URIs obtained by following `next` from `uri`: `some uris`
when the chain ends (a null `next`) within `fuel` pages. -/
def followNext (server : Str → WebApi_PagingObject) : Nat → Str → Option (List Str)
  | 0, _ => none
  | fuel + 1, uri =>
    match (server uri).next with
    | none => some [uri]
    | some nxt => (followNext server fuel nxt).map (uri :: ·)

/-! ## String-level helper lemmas -/

theorem stripLead_append (p rest : Str) : stripLead p (p ++ rest) = some rest := by
  induction p with
  | nil => rfl
  | cons c cs ih => simp [stripLead, ih]

theorem stripLead_eq_some {p l r : Str} : stripLead p l = some r ↔ l = p ++ r := by
  induction p generalizing l with
  | nil => simp [stripLead]
  | cons c cs ih =>
    cases l with
    | nil => simp [stripLead]
    | cons d ds =>
      by_cases h : c = d
      · subst h
        simp [stripLead, ih]
      · simp only [stripLead, if_neg h, List.cons_append]
        constructor
        · intro hc
          cases hc
        · intro he
          injection he with h1 _
          exact absurd h1.symm h

theorem splitOnChar_not_mem {sep : Char} {l : Str} (h : sep ∉ l) :
    splitOnChar sep l = [l] := by
  induction l with
  | nil => rfl
  | cons c rest ih =>
    have hc : ¬(c = sep) := fun he => h (he ▸ List.mem_cons_self c rest)
    have hr : sep ∉ rest := fun hm => h (List.mem_cons_of_mem _ hm)
    simp [splitOnChar, hc, ih hr]

theorem splitOnChar_append {sep : Char} {l1 : Str} (l2 : Str) (h : sep ∉ l1) :
    splitOnChar sep (l1 ++ sep :: l2) = l1 :: splitOnChar sep l2 := by
  induction l1 with
  | nil => simp [splitOnChar]
  | cons c rest ih =>
    have hc : ¬(c = sep) := fun he => h (he ▸ List.mem_cons_self c rest)
    have hr : sep ∉ rest := fun hm => h (List.mem_cons_of_mem _ hm)
    simp [splitOnChar, hc, ih hr]

theorem takeWhile_all {p : Char → Bool} {l : Str} (h : ∀ c ∈ l, p c = true) :
    l.takeWhile p = l := by
  induction l with
  | nil => rfl
  | cons c rest ih =>
    simp [List.takeWhile_cons, h c (List.mem_cons_self c rest),
      ih fun x hx => h x (List.mem_cons_of_mem _ hx)]

/-! ## Identifier model: parsing lemmas -/

theorem IsValidType_cases {t : Str} (h : IsValidType t = true) :
    t = "track".toList ∨ t = "album".toList ∨ t = "playlist".toList :=
  of_decide_eq_true h

theorem IsValidType_colon {t : Str} (h : IsValidType t = true) : ':' ∉ t := by
  rcases IsValidType_cases h with h' | h' | h' <;> subst h' <;> decide

theorem IsValidType_slash {t : Str} (h : IsValidType t = true) : '/' ∉ t := by
  rcases IsValidType_cases h with h' | h' | h' <;> subst h' <;> decide

theorem parseUriInput_ok {t id : Str} (ht : IsValidType t = true) (hid : id ≠ [])
    (hcolon : ':' ∉ id) :
    parseUriInput ("spotify:".toList ++ t ++ ':' :: id) = .ok ⟨t, id⟩ := by
  have he : "spotify:".toList ++ t ++ ':' :: id
      = "spotify".toList ++ ':' :: (t ++ ':' :: id) := rfl
  unfold parseUriInput
  rw [he, splitOnChar_append _ (by decide), splitOnChar_append _ (IsValidType_colon ht),
    splitOnChar_not_mem hcolon]
  simp [ht, hid]

theorem parseUrlRest_ok {t id : Str} (ht : IsValidType t = true) (hid : id ≠ [])
    (hslash : '/' ∉ id) (hq : '?' ∉ id) :
    parseUrlRest (t ++ '/' :: id) = .ok ⟨t, id⟩ := by
  have htw : id.takeWhile (fun c => !decide (c = '?')) = id :=
    takeWhile_all fun c hc => by
      have hne : ¬(c = '?') := fun he => hq (he ▸ hc)
      simp [hne]
  unfold parseUrlRest
  rw [splitOnChar_append _ (IsValidType_slash ht), splitOnChar_not_mem hslash]
  simp [ht, htw, hid]

theorem parse_toUri {o : SpotifyObject} (ht : IsValidType o.type = true)
    (hid : o.id ≠ []) (hcolon : ':' ∉ o.id) :
    parseSpotifyObject o.toUri = .ok o := by
  have h0 : parseSpotifyObject o.toUri
      = parseUriInput ("spotify:".toList ++ o.type ++ ':' :: o.id) := rfl
  rw [h0, parseUriInput_ok ht hid hcolon]

theorem parse_toUrl {o : SpotifyObject} (ht : IsValidType o.type = true)
    (hid : o.id ≠ []) (hslash : '/' ∉ o.id) (hq : '?' ∉ o.id) :
    parseSpotifyObject o.toUrl = .ok o := by
  have h0 : parseSpotifyObject o.toUrl = parseUrlRest (o.type ++ '/' :: o.id) := rfl
  rw [h0, parseUrlRest_ok ht hid hslash hq]

theorem parse_toSchema {o : SpotifyObject} (ht : IsValidType o.type = true)
    (hid : o.id ≠ []) (hcolon : ':' ∉ o.id) :
    parseSpotifyObject o.toSchema = .ok o := by
  have h0 : parseSpotifyObject o.toSchema
      = parseUriInput ("spotify:".toList ++ o.type ++ ':' :: o.id) := rfl
  rw [h0, parseUriInput_ok ht hid hcolon]

theorem parseUriInput_inv {x : Str} {o : SpotifyObject} (h : parseUriInput x = .ok o) :
    IsValidType o.type = true ∧ o.id ≠ [] := by
  unfold parseUriInput at h
  split at h
  · split at h
    · split at h
      · split at h
        · cases h
        · cases h
          exact ⟨by assumption, by assumption⟩
      · cases h
    · cases h
  · cases h

theorem parseUrlRest_inv {x : Str} {o : SpotifyObject} (h : parseUrlRest x = .ok o) :
    IsValidType o.type = true ∧ o.id ≠ [] := by
  unfold parseUrlRest at h
  split at h
  · split at h
    · split at h
      · cases h
      · cases h
        exact ⟨by assumption, by assumption⟩
    · cases h
  · cases h

theorem parseCore_inv {x : Str} {o : SpotifyObject} (h : parseCore x = .ok o) :
    IsValidType o.type = true ∧ o.id ≠ [] := by
  unfold parseCore at h
  split at h
  · exact parseUrlRest_inv h
  · exact parseUriInput_inv h

theorem parseSpotifyObject_inv {s : Str} {o : SpotifyObject}
    (h : parseSpotifyObject s = .ok o) :
    IsValidType o.type = true ∧ o.id ≠ [] := by
  unfold parseSpotifyObject at h
  exact parseCore_inv h

theorem IsValidType_ne_nil {t : Str} (h : IsValidType t = true) : t ≠ [] := by
  rcases IsValidType_cases h with h' | h' | h' <;> subst h' <;> decide

/-! ## Claim C1: format/parse round-trip -/

/-- Claim C1 (amended): formatting then parsing round-trips for every
SpotifyObject whose type is allow-listed and whose id is non-empty and free
of `:`, `/` and `?` characters; in particular the concrete scenario S1
track parses to `{track, 4cOdK2wGLETKBW3PvgPWqT}` and formats back to the
same URI, URL and scheme strings.  (As literally stated the claim fails:
the two-argument constructor also accepts ids containing `:`, whose URI
does not parse back — see the counterexample.) -/
theorem claim_c1_roundtrip :
    (∀ o : SpotifyObject, IsValidType o.type = true → o.id ≠ [] →
        (∀ c ∈ o.id, c ≠ ':' ∧ c ≠ '/' ∧ c ≠ '?') →
        parseSpotifyObject o.toUri = .ok o ∧
        parseSpotifyObject o.toUrl = .ok o ∧
        parseSpotifyObject o.toSchema = .ok o) ∧
    parseSpotifyObject ("spotify:track:4cOdK2wGLETKBW3PvgPWqT".toList)
      = .ok ⟨"track".toList, "4cOdK2wGLETKBW3PvgPWqT".toList⟩ ∧
    SpotifyObject.toUri ⟨"track".toList, "4cOdK2wGLETKBW3PvgPWqT".toList⟩
      = "spotify:track:4cOdK2wGLETKBW3PvgPWqT".toList ∧
    SpotifyObject.toUrl ⟨"track".toList, "4cOdK2wGLETKBW3PvgPWqT".toList⟩
      = "https://open.spotify.com/track/4cOdK2wGLETKBW3PvgPWqT".toList ∧
    SpotifyObject.toSchema ⟨"track".toList, "4cOdK2wGLETKBW3PvgPWqT".toList⟩
      = "sptf://spotify:track:4cOdK2wGLETKBW3PvgPWqT".toList := by
  refine ⟨?_, rfl, rfl, rfl, rfl⟩
  intro o ht hid hfree
  have hcolon : ':' ∉ o.id := fun hm => (hfree _ hm).1 rfl
  have hslash : '/' ∉ o.id := fun hm => (hfree _ hm).2.1 rfl
  have hq : '?' ∉ o.id := fun hm => (hfree _ hm).2.2 rfl
  exact ⟨parse_toUri ht hid hcolon, parse_toUrl ht hid hslash hq,
    parse_toSchema ht hid hcolon⟩

/-- Witness for C1: the amended round-trip applied to the concrete S1
object. -/
theorem claim_c1_witness :
    parseSpotifyObject
        (SpotifyObject.toUri ⟨"track".toList, "4cOdK2wGLETKBW3PvgPWqT".toList⟩)
      = .ok ⟨"track".toList, "4cOdK2wGLETKBW3PvgPWqT".toList⟩ :=
  (claim_c1_roundtrip.1 ⟨"track".toList, "4cOdK2wGLETKBW3PvgPWqT".toList⟩
    (by decide) (by decide) (by decide)).1

/-- Counterexample to C1 as stated: `{track, a:b}` is a SpotifyObject the
two-argument constructor accepts, but parsing its URI form fails, so not
every SpotifyObject round-trips. -/
theorem claim_c1_counterexample :
    mkSpotifyObject ("track".toList) ("a:b".toList)
        = .ok ⟨"track".toList, "a:b".toList⟩ ∧
    parseSpotifyObject (SpotifyObject.toUri ⟨"track".toList, "a:b".toList⟩)
        = .error .invalidUri :=
  ⟨rfl, rfl⟩

/-! ## Claim C7: constructor invariants -/

/-- Claim C7 (amended): every SpotifyObject constructed by parsing has an
allow-listed (hence non-empty) type and a non-empty id, and the
two-argument constructor guarantees an allow-listed (hence non-empty)
type; however, an id parsed from the URI form may contain `?` or `/`, and
the two-argument constructor does not require a non-empty id (see the
counterexample). -/
theorem claim_c7_invariants :
    (∀ (s : Str) (o : SpotifyObject), parseSpotifyObject s = .ok o →
        IsValidType o.type = true ∧ o.type ≠ [] ∧ o.id ≠ []) ∧
    (∀ (t i : Str) (o : SpotifyObject), mkSpotifyObject t i = .ok o →
        IsValidType o.type = true ∧ o.type ≠ []) := by
  constructor
  · intro s o h
    obtain ⟨h1, h2⟩ := parseSpotifyObject_inv h
    exact ⟨h1, IsValidType_ne_nil h1, h2⟩
  · intro t i o h
    unfold mkSpotifyObject at h
    split at h
    · cases h
      exact ⟨by assumption, IsValidType_ne_nil (by assumption)⟩
    · cases h

/-- Witness for C7: the parse invariant applied to a concrete input. -/
theorem claim_c7_witness :
    IsValidType (SpotifyObject.mk ("track".toList) ("x".toList)).type = true ∧
    (SpotifyObject.mk ("track".toList) ("x".toList)).type ≠ [] ∧
    (SpotifyObject.mk ("track".toList) ("x".toList)).id ≠ [] :=
  claim_c7_invariants.1 ("spotify:track:x".toList) ⟨"track".toList, "x".toList⟩ rfl

/-- Counterexample to C7 as stated: the URI form accepts an id containing
both `/` and `?`, and the two-argument constructor accepts an empty id. -/
theorem claim_c7_counterexample :
    parseSpotifyObject ("spotify:track:a/b?x".toList)
        = .ok ⟨"track".toList, "a/b?x".toList⟩ ∧
    ('/' ∈ "a/b?x".toList ∧ '?' ∈ "a/b?x".toList) ∧
    mkSpotifyObject ("track".toList) [] = .ok ⟨"track".toList, []⟩ :=
  ⟨rfl, by decide, rfl⟩

/-! ## Claim C9: `SpotifyFilteredTrack::IsValid` -/

/-- Claim C9: with `pure_path_only=true` the predicate accepts exactly the
inputs of the form `sptf://` ++ rest where rest starts with
`spotify:track:`; with `pure_path_only=false` the `sptf://` lead is
optional (stripped when present) and the remaining string must start with
`spotify:track:`. -/
theorem claim_c9_isFilteredTrack : ∀ input : Str,
    (isFilteredTrackValid input true = true ↔
      ∃ rest, input = schemaLead ++ rest ∧
        ∃ r2, rest = "spotify:track:".toList ++ r2) ∧
    (∀ rest, input = schemaLead ++ rest →
      (isFilteredTrackValid input false = true ↔
        ∃ r2, rest = "spotify:track:".toList ++ r2)) ∧
    ((∀ rest, input ≠ schemaLead ++ rest) →
      (isFilteredTrackValid input false = true ↔
        ∃ r2, input = "spotify:track:".toList ++ r2)) := by
  intro input
  cases h : stripLead schemaLead input with
  | none =>
    have hno : ∀ rest, input ≠ schemaLead ++ rest := by
      intro rest he
      rw [stripLead_eq_some.mpr he] at h
      cases h
    refine ⟨?_, ?_, ?_⟩
    · simp only [isFilteredTrackValid, h]
      constructor
      · intro hfal
        cases hfal
      · rintro ⟨rest, he, _⟩
        exact absurd he (hno rest)
    · intro rest he
      exact absurd he (hno rest)
    · intro _
      simp only [isFilteredTrackValid, h]
      rw [if_neg (by decide : ¬(false = true)), Option.isSome_iff_exists]
      exact exists_congr fun r2 => stripLead_eq_some
  | some rest =>
    have heq : input = schemaLead ++ rest := stripLead_eq_some.mp h
    have huniq : ∀ rest0, input = schemaLead ++ rest0 → rest0 = rest := by
      intro rest0 he0
      have := stripLead_eq_some.mpr he0
      rw [h] at this
      injection this with h1
      exact h1.symm
    refine ⟨?_, ?_, ?_⟩
    · simp only [isFilteredTrackValid, h]
      rw [Option.isSome_iff_exists]
      constructor
      · rintro ⟨r2, hr2⟩
        exact ⟨rest, heq, r2, stripLead_eq_some.mp hr2⟩
      · rintro ⟨rest0, he0, r2, hr2⟩
        have hr := huniq rest0 he0
        subst hr
        exact ⟨r2, stripLead_eq_some.mpr hr2⟩
    · intro rest0 he0
      have hr := huniq rest0 he0
      subst hr
      simp only [isFilteredTrackValid, h]
      rw [Option.isSome_iff_exists]
      exact exists_congr fun r2 => stripLead_eq_some
    · intro hno
      exact absurd heq (hno rest)

/-- Witness for C9: the predicate applied to a schemed track path. -/
theorem claim_c9_witness :
    isFilteredTrackValid ("sptf://spotify:track:x".toList) false = true :=
  ((claim_c9_isFilteredTrack ("sptf://spotify:track:x".toList)).2.1
      ("spotify:track:x".toList) (by decide)).mpr ⟨"x".toList, by decide⟩

/-! ## Claims C2 and C8: the 429 retry loop -/

theorem getResponseGo_spec (t : Nat → HttpResponse) :
    ∀ (rest i : Nat) (sleeps : List Nat),
      i + 1 ≤ (getResponseGo t rest i sleeps).requests ∧
      (getResponseGo t rest i sleeps).requests ≤ i + rest + 1 ∧
      (∀ j, i ≤ j → j + 1 < (getResponseGo t rest i sleeps).requests →
        (t j).status = 429) := by
  intro rest
  induction rest with
  | zero =>
    intro i sleeps
    by_cases hs : (t i).status = 429
    · cases hh : findHeader (t i).headers ("Retry-After".toList) with
      | none =>
        simp only [getResponseGo, hs, hh, if_true, eq_self_iff_true]
        refine ⟨Nat.le_refl _, by omega, ?_⟩
        intro j hij hj
        have : j + 1 < i + 1 := hj
        omega
      | some v =>
        cases hn : getNumberU32 v with
        | none =>
          simp only [getResponseGo, hs, hh, hn, if_true, eq_self_iff_true]
          refine ⟨Nat.le_refl _, by omega, ?_⟩
          intro j hij hj
          have : j + 1 < i + 1 := hj
          omega
        | some ms =>
          simp only [getResponseGo, hs, hh, hn, if_true, eq_self_iff_true]
          refine ⟨Nat.le_refl _, by omega, ?_⟩
          intro j hij hj
          have : j + 1 < i + 1 := hj
          omega
    · simp only [getResponseGo, if_neg hs]
      refine ⟨Nat.le_refl _, by omega, ?_⟩
      intro j hij hj
      have : j + 1 < i + 1 := hj
      omega
  | succ r ih =>
    intro i sleeps
    by_cases hs : (t i).status = 429
    · cases hh : findHeader (t i).headers ("Retry-After".toList) with
      | none =>
        simp only [getResponseGo, hs, hh, if_true, eq_self_iff_true]
        refine ⟨Nat.le_refl _, by omega, ?_⟩
        intro j hij hj
        have : j + 1 < i + 1 := hj
        omega
      | some v =>
        cases hn : getNumberU32 v with
        | none =>
          simp only [getResponseGo, hs, hh, hn, if_true, eq_self_iff_true]
          refine ⟨Nat.le_refl _, by omega, ?_⟩
          intro j hij hj
          have : j + 1 < i + 1 := hj
          omega
        | some ms =>
          have hrec := ih (i + 1) (sleeps ++ [ms + 1000])
          simp only [getResponseGo, hs, hh, hn, if_true, eq_self_iff_true]
          refine ⟨by omega, by omega, ?_⟩
          intro j hij hj
          by_cases hji : j = i
          · subst hji
            exact hs
          · exact hrec.2.2 j (by omega) hj
    · simp only [getResponseGo, if_neg hs]
      refine ⟨Nat.le_refl _, by omega, ?_⟩
      intro j hij hj
      have : j + 1 < i + 1 := hj
      omega

/-- The concrete scenario transport of S4: first response `429` with
`Retry-After: 250`, second response `200`. -/
def transport429then200 : Nat → HttpResponse := fun i =>
  if i = 0 then ⟨429, [("Retry-After".toList, "250".toList)]⟩ else ⟨200, []⟩

/-- Claim C2: the retry loop retries only on 429 and makes at most 3
attempts; when all three responses are 429 with a parseable Retry-After it
sleeps value+1000 ms each time and returns the final 429 response; and in
the S4 scenario (429 `Retry-After: 250`, then 200) exactly 2 requests are
sent, exactly one sleep of 250+1000 ms occurs, and the 200 response is
returned. -/
theorem claim_c2_retryLoop :
    (∀ t : Nat → HttpResponse,
      1 ≤ (getResponse t).requests ∧ (getResponse t).requests ≤ 3 ∧
      (∀ j, j + 1 < (getResponse t).requests → (t j).status = 429)) ∧
    (∀ (t : Nat → HttpResponse) (v0 v1 v2 : Str) (m0 m1 m2 : Nat),
      (t 0).status = 429 → (t 1).status = 429 → (t 2).status = 429 →
      findHeader (t 0).headers ("Retry-After".toList) = some v0 →
      findHeader (t 1).headers ("Retry-After".toList) = some v1 →
      findHeader (t 2).headers ("Retry-After".toList) = some v2 →
      getNumberU32 v0 = some m0 → getNumberU32 v1 = some m1 →
      getNumberU32 v2 = some m2 →
      getResponse t = ⟨.ok (t 2), 3, [m0 + 1000, m1 + 1000, m2 + 1000]⟩) ∧
    getResponse transport429then200 = ⟨.ok ⟨200, []⟩, 2, [250 + 1000]⟩ := by
  refine ⟨?_, ?_, rfl⟩
  · intro t
    have h := getResponseGo_spec t 2 0 []
    exact ⟨h.1, h.2.1, fun j hj => h.2.2 j (Nat.zero_le j) hj⟩
  · intro t v0 v1 v2 m0 m1 m2 h0 h1 h2 hh0 hh1 hh2 hn0 hn1 hn2
    simp only [getResponse, getResponseGo, h0, h1, h2, hh0, hh1, hh2, hn0, hn1, hn2,
      if_pos rfl, List.nil_append, List.cons_append, List.append_nil]
    rfl

/-- The all-429 transport used to instantiate C2. -/
def transportAll429 : Nat → HttpResponse := fun _ =>
  ⟨429, [("Retry-After".toList, "100".toList)]⟩

/-- Witness for C2: the all-429 branch evaluated on a concrete transport. -/
theorem claim_c2_witness :
    getResponse transportAll429
      = ⟨.ok ⟨429, [("Retry-After".toList, "100".toList)]⟩, 3,
          [100 + 1000, 100 + 1000, 100 + 1000]⟩ :=
  claim_c2_retryLoop.2.1 transportAll429 ("100".toList) ("100".toList) ("100".toList)
    100 100 100 rfl rfl rfl rfl rfl rfl rfl rfl rfl

/-- Claim C8: a 429 response with a missing or unparseable `Retry-After`
header makes the loop raise a protocol error at once: the attempt counter
advances by exactly the current request, no sleep is recorded, and no
further request is issued — at any point of the loop, hence in particular
for the first response. -/
theorem claim_c8_protocolError :
    (∀ (t : Nat → HttpResponse) (rest i : Nat) (sleeps : List Nat),
      (t i).status = 429 →
      (findHeader (t i).headers ("Retry-After".toList) = none ∨
        ∃ v, findHeader (t i).headers ("Retry-After".toList) = some v ∧
          getNumberU32 v = none) →
      getResponseGo t rest i sleeps = ⟨.protocolError, i + 1, sleeps⟩) ∧
    (∀ t : Nat → HttpResponse,
      (t 0).status = 429 →
      (findHeader (t 0).headers ("Retry-After".toList) = none ∨
        ∃ v, findHeader (t 0).headers ("Retry-After".toList) = some v ∧
          getNumberU32 v = none) →
      getResponse t = ⟨.protocolError, 1, []⟩) := by
  have hgo : ∀ (t : Nat → HttpResponse) (rest i : Nat) (sleeps : List Nat),
      (t i).status = 429 →
      (findHeader (t i).headers ("Retry-After".toList) = none ∨
        ∃ v, findHeader (t i).headers ("Retry-After".toList) = some v ∧
          getNumberU32 v = none) →
      getResponseGo t rest i sleeps = ⟨.protocolError, i + 1, sleeps⟩ := by
    intro t rest i sleeps hs hbad
    rcases hbad with hh | ⟨v, hh, hn⟩
    · cases rest <;> simp only [getResponseGo, hs, hh, if_true, eq_self_iff_true]
    · cases rest <;> simp only [getResponseGo, hs, hh, hn, if_true, eq_self_iff_true]
  exact ⟨hgo, fun t hs hbad => hgo t 2 0 [] hs hbad⟩

/-- The transport whose first response is a 429 without `Retry-After`. -/
def transport429NoHeader : Nat → HttpResponse := fun _ => ⟨429, []⟩

/-- Witness for C8: the loop on a 429 without `Retry-After` errors after a
single request and no sleep. -/
theorem claim_c8_witness :
    getResponse transport429NoHeader = ⟨.protocolError, 1, []⟩ :=
  claim_c8_protocolError.2 transport429NoHeader rfl (Or.inl rfl)

/-! ## Cache lemmas -/

theorem lookup_cacheObject (c : TrackCache) (t : WebApi_Track) (id : Str) :
    (cacheObject c t).lookup id = if id = t.id then some t else c.lookup id := by
  by_cases h : id = t.id
  · simp [cacheObject, List.lookup, h]
  · have hb : (id == t.id) = false := beq_eq_false_iff_ne.mpr h
    simp [cacheObject, List.lookup, h, hb]

theorem cacheObjects_cons (c : TrackCache) (t : WebApi_Track) (ts : List WebApi_Track) :
    cacheObjects c (t :: ts) = cacheObjects (cacheObject c t) ts := rfl

theorem isCached_cacheObject_mono {c : TrackCache} {id : Str} (t : WebApi_Track)
    (h : isCached c id = true) : isCached (cacheObject c t) id = true := by
  unfold isCached at *
  rw [lookup_cacheObject]
  by_cases he : id = t.id <;> simp [he, h]

theorem isCached_cacheObjects_mono :
    ∀ (ts : List WebApi_Track) (c : TrackCache) (id : Str),
      isCached c id = true → isCached (cacheObjects c ts) id = true := by
  intro ts
  induction ts with
  | nil => intro c id h; exact h
  | cons t ts ih =>
    intro c id h
    rw [cacheObjects_cons]
    exact ih _ _ (isCached_cacheObject_mono t h)

theorem isCached_cacheObjects_of_mem :
    ∀ (ts : List WebApi_Track) (c : TrackCache) (id : Str),
      id ∈ ts.map (fun t => t.id) → isCached (cacheObjects c ts) id = true := by
  intro ts
  induction ts with
  | nil => intro c id h; cases h
  | cons t ts ih =>
    intro c id h
    rw [cacheObjects_cons]
    rcases List.mem_cons.mp h with he | hm
    · refine isCached_cacheObjects_mono ts _ id ?_
      unfold isCached
      rw [lookup_cacheObject, if_pos he]
      rfl
    · exact ih _ _ hm

theorem lookup_cacheObjects_not_mem :
    ∀ (ts : List WebApi_Track) (c : TrackCache) (id : Str),
      id ∉ ts.map (fun t => t.id) → (cacheObjects c ts).lookup id = c.lookup id := by
  intro ts
  induction ts with
  | nil => intro c id _; rfl
  | cons t ts ih =>
    intro c id h
    have h1 : id ≠ t.id := fun he => h (List.mem_cons.mpr (Or.inl he))
    have h2 : id ∉ ts.map (fun t => t.id) := fun hm => h (List.mem_cons.mpr (Or.inr hm))
    rw [cacheObjects_cons, ih _ _ h2, lookup_cacheObject, if_neg h1]

theorem isCached_cacheObjects_not_mem {ts : List WebApi_Track} {c : TrackCache} {id : Str}
    (h : id ∉ ts.map (fun t => t.id)) :
    isCached (cacheObjects c ts) id = isCached c id := by
  unfold isCached
  rw [lookup_cacheObjects_not_mem ts c id h]

theorem keyInv_cacheObjects :
    ∀ (ts : List WebApi_Track) (c : TrackCache),
      (∀ id t, c.lookup id = some t → t.id = id) →
      ∀ id t, (cacheObjects c ts).lookup id = some t → t.id = id := by
  intro ts
  induction ts with
  | nil => intro c hc; exact hc
  | cons t0 ts ih =>
    intro c hc
    rw [cacheObjects_cons]
    refine ih _ ?_
    intro id t h
    rw [lookup_cacheObject] at h
    by_cases he : id = t0.id
    · rw [if_pos he] at h
      injection h with h1
      rw [← h1, he]
    · rw [if_neg he] at h
      exact hc id t h

/-! ## Concrete backends used for instantiation -/

/-- A well-behaved server: every fetch returns a track whose id is the
requested one; the user profile has country `US`. -/
def echoBackend : Backend where
  userResp := ⟨some ("US".toList)⟩
  trackResp := fun id _ => ⟨id, [], 0⟩
  tracksResp := fun q => q.map fun id => ⟨id, [], 0⟩
  topTracksResp := fun aid c => [⟨aid, c, 0⟩]

/-- A backend whose user profile has no country. -/
def noCountryBackend : Backend where
  userResp := ⟨none⟩
  trackResp := fun id _ => ⟨id, [], 0⟩
  tracksResp := fun q => q.map fun id => ⟨id, [], 0⟩
  topTracksResp := fun _ _ => []

/-- A degenerate server whose batch track endpoint returns no tracks at
all. -/
def emptyBatchBackend : Backend where
  userResp := ⟨none⟩
  trackResp := fun id _ => ⟨id, [], 0⟩
  tracksResp := fun _ => []
  topTracksResp := fun _ _ => []

/-! ## Claim C3: relink bypasses the track cache -/

/-- Claim C3 (amended): `GetTrack` with `useRelink=true` leaves the track
cache exactly as it was (no write), returns the freshly fetched track (never
a cached value), and issues the track request with the market set to the
current user's profile country option — `market=<country>` is present
exactly when the profile has a country, and absent when it has none (the
literal claim that the request always carries `market` fails, see the
counterexample). -/
theorem claim_c3_relink :
    ∀ (b : Backend) (st : BackendState) (tid : Str),
      (getTrack b st tid true).2.1.trackCache = st.trackCache ∧
      (getTrack b st tid true).1 = b.trackResp tid (getUser b st).1.country ∧
      (getTrack b st tid true).2.2
        = (getUser b st).2.2 ++ [Request.track tid (getUser b st).1.country] := by
  intro b st tid
  cases hu : st.userCache with
  | none =>
    cases hl : st.trackCache.lookup tid with
    | none => refine ⟨?_, ?_, ?_⟩ <;> simp [getTrack, getUser, hu, hl]
    | some t => refine ⟨?_, ?_, ?_⟩ <;> simp [getTrack, getUser, hu, hl]
  | some u =>
    cases hl : st.trackCache.lookup tid with
    | none => refine ⟨?_, ?_, ?_⟩ <;> simp [getTrack, getUser, hu, hl]
    | some t => refine ⟨?_, ?_, ?_⟩ <;> simp [getTrack, getUser, hu, hl]

/-- Witness for C3: the relink cache bypass at a concrete backend. -/
theorem claim_c3_witness :
    (getTrack echoBackend ⟨[], none⟩ ("x".toList) true).2.1.trackCache
      = ([] : TrackCache) :=
  (claim_c3_relink echoBackend ⟨[], none⟩ ("x".toList)).1

/-- Counterexample to C3 as stated: with a user profile lacking a country,
the relinked track request is issued without any `market` parameter. -/
theorem claim_c3_counterexample :
    (getTrack noCountryBackend ⟨[], none⟩ ("x".toList) true).2.2
      = [Request.user, Request.track ("x".toList) none] := rfl

/-! ## Claim C10: `GetTopTracksForArtist` requires a profile country -/

/-- Claim C10: `GetTopTracksForArtist` fetches the user first; when the
profile has no country it fails without issuing any top-tracks request;
when a country is present it issues exactly one top-tracks request carrying
`market=<country>` (after the possible user fetch) and returns the fetched
tracks. -/
theorem claim_c10_topTracks :
    ∀ (b : Backend) (st : BackendState) (aid : Str),
      ((getUser b st).1.country = none →
        (getTopTracksForArtist b st aid).1 = none ∧
        (getTopTracksForArtist b st aid).2.2 = (getUser b st).2.2 ∧
        (∀ a m, Request.topTracks a m ∉ (getTopTracksForArtist b st aid).2.2)) ∧
      (∀ c, (getUser b st).1.country = some c →
        (getTopTracksForArtist b st aid).1 = some (b.topTracksResp aid c) ∧
        (getTopTracksForArtist b st aid).2.2
          = (getUser b st).2.2 ++ [Request.topTracks aid c]) := by
  intro b st aid
  cases hu : st.userCache with
  | none =>
    constructor
    · intro hnone
      have hc : b.userResp.country = none := by simpa [getUser, hu] using hnone
      refine ⟨?_, ?_, ?_⟩ <;> simp [getTopTracksForArtist, getUser, hu, hc]
    · intro c hsome
      have hc : b.userResp.country = some c := by simpa [getUser, hu] using hsome
      exact ⟨by simp [getTopTracksForArtist, getUser, hu, hc],
        by simp [getTopTracksForArtist, getUser, hu, hc]⟩
  | some u =>
    constructor
    · intro hnone
      have hc : u.country = none := by simpa [getUser, hu] using hnone
      refine ⟨?_, ?_, ?_⟩ <;> simp [getTopTracksForArtist, getUser, hu, hc]
    · intro c hsome
      have hc : u.country = some c := by simpa [getUser, hu] using hsome
      exact ⟨by simp [getTopTracksForArtist, getUser, hu, hc],
        by simp [getTopTracksForArtist, getUser, hu, hc]⟩

/-- Witness for C10: the country-less and country-carrying branches at
concrete backends. -/
theorem claim_c10_witness :
    (getTopTracksForArtist noCountryBackend ⟨[], none⟩ ("artist".toList)).1 = none ∧
    (getTopTracksForArtist echoBackend ⟨[], none⟩ ("artist".toList)).2.2
      = [Request.user, Request.topTracks ("artist".toList) ("US".toList)] := by
  constructor
  · exact ((claim_c10_topTracks noCountryBackend ⟨[], none⟩ ("artist".toList)).1 rfl).1
  · have h := ((claim_c10_topTracks echoBackend ⟨[], none⟩ ("artist".toList)).2
      ("US".toList) rfl).2
    simpa using h

/-! ## Deduplication lemmas -/

theorem mem_dedupGo :
    ∀ (l seen : List Str) (x : Str), x ∈ dedupGo seen l ↔ x ∈ l ∧ x ∉ seen := by
  intro l
  induction l with
  | nil => intro seen x; simp [dedupGo]
  | cons id rest ih =>
    intro seen x
    by_cases h : id ∈ seen
    · rw [show dedupGo seen (id :: rest) = dedupGo seen rest by simp [dedupGo, h]]
      rw [ih seen x]
      constructor
      · rintro ⟨hm, hn⟩
        exact ⟨List.mem_cons_of_mem _ hm, hn⟩
      · rintro ⟨hor, hn⟩
        rcases List.mem_cons.mp hor with he | hm
        · exact absurd (he ▸ h) hn
        · exact ⟨hm, hn⟩
    · rw [show dedupGo seen (id :: rest) = id :: dedupGo (id :: seen) rest by
        simp [dedupGo, h]]
      constructor
      · intro hm
        rcases List.mem_cons.mp hm with he | hm2
        · exact ⟨he ▸ List.mem_cons_self id rest, he ▸ h⟩
        · obtain ⟨hr, hn⟩ := (ih (id :: seen) x).mp hm2
          exact ⟨List.mem_cons_of_mem _ hr,
            fun hx => hn (List.mem_cons_of_mem _ hx)⟩
      · rintro ⟨hor, hn⟩
        rcases List.mem_cons.mp hor with he | hm2
        · exact he ▸ List.mem_cons_self _ _
        · by_cases hx : x = id
          · exact hx ▸ List.mem_cons_self _ _
          · refine List.mem_cons_of_mem _ ((ih (id :: seen) x).mpr ⟨hm2, ?_⟩)
            intro hmem
            rcases List.mem_cons.mp hmem with h1 | h1
            · exact hx h1
            · exact hn h1

theorem nodup_dedupGo : ∀ (l seen : List Str), (dedupGo seen l).Nodup := by
  intro l
  induction l with
  | nil => intro seen; simp [dedupGo]
  | cons id rest ih =>
    intro seen
    by_cases h : id ∈ seen
    · rw [show dedupGo seen (id :: rest) = dedupGo seen rest by simp [dedupGo, h]]
      exact ih seen
    · rw [show dedupGo seen (id :: rest) = id :: dedupGo (id :: seen) rest by
        simp [dedupGo, h]]
      refine List.nodup_cons.mpr ⟨?_, ih (id :: seen)⟩
      intro hm
      exact ((mem_dedupGo rest (id :: seen) id).mp hm).2 (List.mem_cons_self _ _)

theorem mem_dedupIds {ids : List Str} {x : Str} : x ∈ dedupIds ids ↔ x ∈ ids := by
  rw [dedupIds, mem_dedupGo]
  simp

theorem nodup_dedupIds (ids : List Str) : (dedupIds ids).Nodup :=
  nodup_dedupGo ids []

/-! ## Chunking -/

/-- Splitting a list into consecutive chunks of `n` elements (the last one
possibly shorter); with `n = 50` this describes the request chunks of the
eager reading of `ranges::views::chunk(50)`. -/
def chunksOf (n : Nat) : List Str → List (List Str)
  | [] => []
  | x :: xs => (x :: xs.take (n - 1)) :: chunksOf n (xs.drop (n - 1))
termination_by l => l.length
decreasing_by simp [List.length_drop]; omega

theorem chunksOf_nil (n : Nat) : chunksOf n [] = [] := by
  rw [chunksOf]

theorem chunksOf_cons (n : Nat) (x : Str) (xs : List Str) :
    chunksOf n (x :: xs) = (x :: xs.take (n - 1)) :: chunksOf n (xs.drop (n - 1)) := by
  rw [chunksOf]

theorem chunksOf_append {c fr : List Str} (hne : c ≠ []) (hle : c.length ≤ 50)
    (hfull : c.length = 50 ∨ fr = []) :
    chunksOf 50 (c ++ fr) = c :: chunksOf 50 fr := by
  cases c with
  | nil => exact absurd rfl hne
  | cons x xs =>
    rw [List.cons_append, chunksOf_cons]
    rcases hfull with h50 | hfr
    · have hxlen : xs.length = 49 := by
        simp only [List.length_cons] at h50
        omega
      congr 1
      · rw [show (50 : Nat) - 1 = xs.length from by omega, List.take_left]
      · rw [show (50 : Nat) - 1 = xs.length from by omega, List.drop_left]
    · subst hfr
      have hxs : xs.length ≤ 49 := by
        simp only [List.length_cons] at hle
        omega
      rw [List.append_nil]
      congr 1
      · rw [List.take_of_length_le (by omega)]
      · rw [List.drop_of_length_le (by omega), chunksOf_nil]

theorem chunksOf_mem_length :
    ∀ (N : Nat) (l : List Str), l.length ≤ N →
      ∀ c ∈ chunksOf 50 l, c.length ≤ 50 := by
  intro N
  induction N with
  | zero =>
    intro l hl c hc
    have : l = [] := List.eq_nil_of_length_eq_zero (Nat.le_zero.mp hl)
    subst this
    rw [chunksOf_nil] at hc
    cases hc
  | succ n ih =>
    intro l hl c hc
    cases l with
    | nil =>
      rw [chunksOf_nil] at hc
      cases hc
    | cons x xs =>
      rw [chunksOf_cons] at hc
      rcases List.mem_cons.mp hc with he | hm
      · subst he
        have := List.length_take_le (50 - 1) xs
        simp only [List.length_cons]
        omega
      · refine ih (xs.drop (50 - 1)) ?_ c hm
        have := List.length_drop (50 - 1) xs
        simp only [List.length_cons] at hl
        omega

theorem chunksOf_length_le (l : List Str) : ∀ c ∈ chunksOf 50 l, c.length ≤ 50 :=
  chunksOf_mem_length l.length l (Nat.le_refl _)

/-! ## The lazily filtered chunk: specification -/

theorem takeChunk_spec (cache : TrackCache) :
    ∀ (l : List Str) (n : Nat), ∃ consumed : List Str,
      l = consumed ++ (takeChunk cache n l).2 ∧
      (takeChunk cache n l).1
        = consumed.filter (fun id => !isCached cache id) ∧
      (takeChunk cache n l).1.length ≤ n ∧
      ((takeChunk cache n l).2 ≠ [] → (takeChunk cache n l).1.length = n) ∧
      (n ≠ 0 → (takeChunk cache n l).1 = [] → (takeChunk cache n l).2 = []) := by
  intro l
  induction l with
  | nil =>
    intro n
    refine ⟨[], ?_, ?_, ?_, ?_, ?_⟩ <;> cases n <;> simp [takeChunk]
  | cons id rest ih =>
    intro n
    cases n with
    | zero =>
      refine ⟨[], ?_, ?_, ?_, ?_, ?_⟩ <;> simp [takeChunk]
    | succ m =>
      by_cases h : isCached cache id = true
      · have htc : takeChunk cache (m + 1) (id :: rest) = takeChunk cache (m + 1) rest := by
          simp [takeChunk, h]
        obtain ⟨consumed, h1, h2, h3, h4, h5⟩ := ih (m + 1)
        refine ⟨id :: consumed, ?_, ?_, ?_, ?_, ?_⟩ <;> rw [htc]
        · rw [List.cons_append, ← h1]
        · rw [List.filter_cons_of_neg (by simp [h]), h2]
        · exact h3
        · exact h4
        · exact fun _ => h5 (by omega)
      · have hfalse : isCached cache id = false := by
          cases hb : isCached cache id
          · rfl
          · exact absurd hb h
        rcases hcr : takeChunk cache m rest with ⟨c, r⟩
        have htc : takeChunk cache (m + 1) (id :: rest) = (id :: c, r) := by
          simp [takeChunk, h, hcr]
        obtain ⟨consumed, h1, h2, h3, h4, h5⟩ := ih m
        rw [hcr] at h1 h2 h3 h4 h5
        simp only at h1 h2 h3 h4 h5
        refine ⟨id :: consumed, ?_, ?_, ?_, ?_, ?_⟩ <;> rw [htc]
        · simp only
          rw [List.cons_append, ← h1]
        · simp only
          rw [List.filter_cons_of_pos (by simp [hfalse]), h2]
        · simp only [List.length_cons]
          omega
        · intro hr
          simp only at hr
          simp only [List.length_cons]
          rw [h4 hr]
        · intro _ hcontra
          simp only at hcontra
          cases hcontra

/-! ## The batch-fetch loop: specification -/

theorem refreshLoop_spec (b : Backend)
    (hS : ∀ q, (b.tracksResp q).map (fun t => t.id) = q) :
    ∀ (N : Nat) (remaining : List Str), remaining.length ≤ N →
      ∀ (cache : TrackCache) (reqs : List Request), remaining.Nodup →
        (refreshLoop b cache remaining reqs).2
            = reqs ++ (chunksOf 50 (remaining.filter (fun id => !isCached cache id))).map
                Request.tracks ∧
        (∀ id, isCached cache id = true →
          isCached (refreshLoop b cache remaining reqs).1 id = true) ∧
        (∀ id ∈ remaining, isCached (refreshLoop b cache remaining reqs).1 id = true) ∧
        ((∀ id t, cache.lookup id = some t → t.id = id) →
          ∀ id t, (refreshLoop b cache remaining reqs).1.lookup id = some t → t.id = id) := by
  intro N
  induction N with
  | zero =>
    intro remaining hlen cache reqs hnd
    have hnil : remaining = [] := List.eq_nil_of_length_eq_zero (Nat.le_zero.mp hlen)
    subst hnil
    have hrl : refreshLoop b cache [] reqs = (cache, reqs) := by
      rw [refreshLoop, dif_pos (by simp [takeChunk])]
    rw [hrl]
    exact ⟨by simp [chunksOf_nil], fun id h => h,
      fun id h => absurd h (List.not_mem_nil id), fun h => h⟩
  | succ n ih =>
    intro remaining hlen cache reqs hnd
    obtain ⟨consumed, h1, h2, h3, h4, h5⟩ := takeChunk_spec cache remaining 50
    by_cases hc : (takeChunk cache 50 remaining).1 = []
    · have hrest : (takeChunk cache 50 remaining).2 = [] := h5 (by omega) hc
      have hrl : refreshLoop b cache remaining reqs = (cache, reqs) := by
        rw [refreshLoop, dif_pos hc]
      have hrem : remaining = consumed := by rw [h1, hrest, List.append_nil]
      have hfil : remaining.filter (fun id => !isCached cache id) = [] := by
        rw [hrem, ← h2, hc]
      rw [hrl]
      refine ⟨?_, fun id h => h, ?_, fun h => h⟩
      · rw [hfil, chunksOf_nil]
        simp
      · intro id hid
        have hall := List.filter_eq_nil_iff.mp hfil id hid
        cases hb : isCached cache id with
        | false => exact absurd (by simp [hb]) hall
        | true => rfl
    · have hrl : refreshLoop b cache remaining reqs
          = refreshLoop b
              (cacheObjects cache (b.tracksResp (takeChunk cache 50 remaining).1))
              (takeChunk cache 50 remaining).2
              (reqs ++ [Request.tracks (takeChunk cache 50 remaining).1]) := by
        conv_lhs => rw [refreshLoop]
        rw [dif_neg hc]
      have hcons : consumed ≠ [] := by
        intro he
        exact hc (by rw [h2, he, List.filter_nil])
      have hlenr : remaining.length = consumed.length + (takeChunk cache 50 remaining).2.length := by
        conv_lhs => rw [h1]
        rw [List.length_append]
      have hlen2 : (takeChunk cache 50 remaining).2.length ≤ n := by
        have hpos : 0 < consumed.length := List.length_pos.mpr hcons
        omega
      rw [h1] at hnd
      obtain ⟨_, hnd2, hdisj⟩ := List.nodup_append.mp hnd
      have hsub_chunk : ∀ id ∈ (takeChunk cache 50 remaining).1, id ∈ consumed := by
        intro id hid
        rw [h2] at hid
        exact (List.mem_filter.mp hid).1
      have hchunk_ids :
          (b.tracksResp (takeChunk cache 50 remaining).1).map (fun t => t.id)
            = (takeChunk cache 50 remaining).1 := hS _
      have hcache2 : ∀ id ∈ (takeChunk cache 50 remaining).2,
          isCached (cacheObjects cache (b.tracksResp (takeChunk cache 50 remaining).1)) id
            = isCached cache id := by
        intro id hid
        refine isCached_cacheObjects_not_mem ?_
        rw [hchunk_ids]
        intro hidc
        exact hdisj (hsub_chunk id hidc) hid
      have hfil2 : (takeChunk cache 50 remaining).2.filter
            (fun id => !isCached (cacheObjects cache
              (b.tracksResp (takeChunk cache 50 remaining).1)) id)
          = (takeChunk cache 50 remaining).2.filter (fun id => !isCached cache id) := by
        refine List.filter_congr ?_
        intro id hid
        rw [hcache2 id hid]
      have hfilrem : remaining.filter (fun id => !isCached cache id)
          = (takeChunk cache 50 remaining).1
            ++ (takeChunk cache 50 remaining).2.filter (fun id => !isCached cache id) := by
        conv_lhs => rw [h1]
        rw [List.filter_append, ← h2]
      have hchunks : chunksOf 50 (remaining.filter (fun id => !isCached cache id))
          = (takeChunk cache 50 remaining).1
            :: chunksOf 50
              ((takeChunk cache 50 remaining).2.filter (fun id => !isCached cache id)) := by
        rw [hfilrem]
        refine chunksOf_append hc h3 ?_
        by_cases hr2 : (takeChunk cache 50 remaining).2 = []
        · exact Or.inr (by rw [hr2, List.filter_nil])
        · exact Or.inl (h4 hr2)
      have ihh := ih (takeChunk cache 50 remaining).2 hlen2
        (cacheObjects cache (b.tracksResp (takeChunk cache 50 remaining).1))
        (reqs ++ [Request.tracks (takeChunk cache 50 remaining).1]) hnd2
      rw [hrl]
      refine ⟨?_, ?_, ?_, ?_⟩
      · rw [ihh.1, hfil2, hchunks]
        simp
      · intro id h
        exact ihh.2.1 id (isCached_cacheObjects_mono _ _ _ h)
      · intro id hid
        rw [h1] at hid
        rcases List.mem_append.mp hid with hcons_id | hrest_id
        · by_cases hb : isCached cache id = true
          · exact ihh.2.1 id (isCached_cacheObjects_mono _ _ _ hb)
          · have hfb : isCached cache id = false := by
              cases hx : isCached cache id
              · rfl
              · exact absurd hx hb
            have hmemc : id ∈ (takeChunk cache 50 remaining).1 := by
              rw [h2]
              exact List.mem_filter.mpr ⟨hcons_id, by simp [hfb]⟩
            refine ihh.2.1 id ?_
            refine isCached_cacheObjects_of_mem _ _ _ ?_
            rw [hchunk_ids]
            exact hmemc
        · exact ihh.2.2.1 id hrest_id
      · intro hinv
        exact ihh.2.2.2 (keyInv_cacheObjects _ _ hinv)

/-! ## Serving from the cache -/

theorem lookupTracks_spec (c : TrackCache)
    (hinv : ∀ id t, c.lookup id = some t → t.id = id) :
    ∀ ids : List Str, (∀ id ∈ ids, isCached c id = true) →
      ∃ ts, lookupTracks c ids = some ts ∧ ts.length = ids.length ∧
        ∀ (i : Nat) (hi : i < ids.length) (hi2 : i < ts.length),
          (ts.get ⟨i, hi2⟩).id = ids.get ⟨i, hi⟩ := by
  intro ids
  induction ids with
  | nil =>
    intro _
    exact ⟨[], rfl, rfl, fun i hi => absurd hi (by simp)⟩
  | cons id rest ih =>
    intro hall
    have hcc : isCached c id = true := hall id (List.mem_cons_self _ _)
    obtain ⟨t, ht⟩ := Option.isSome_iff_exists.mp hcc
    obtain ⟨ts, hts, hlen, hidx⟩ := ih fun x hx => hall x (List.mem_cons_of_mem _ hx)
    refine ⟨t :: ts, ?_, by simp [hlen], ?_⟩
    · simp [lookupTracks, ht, hts]
    · intro i hi hi2
      cases i with
      | zero => simpa using hinv id t ht
      | succ j =>
        simpa using hidx j (by simpa using hi) (by simpa using hi2)

/-! ## Claims C4 and C5: batch fetch -/

/-- A numeric track id. -/
def natId (n : Nat) : Str := (Nat.repr n).toList

/-- The 120 ids of scenario S5: 100 distinct ids followed by 20 repeats. -/
def c4Ids : List Str := ((List.range 100).map natId) ++ ((List.range 20).map natId)

theorem echoBackend_ids : ∀ q, (echoBackend.tracksResp q).map (fun t => t.id) = q := by
  intro q
  induction q with
  | nil => rfl
  | cons x xs ih =>
    simp only [echoBackend, List.map_cons] at *
    rw [ih]

/-- Claim C4: `GetTracks` deduplicates the requested ids, drops the cached
ones, issues one `GET` per chunk of at most 50 uncached unique ids, and
then serves the whole original input list from the cache in input order —
assuming the server answers each batch with exactly the requested tracks
and the cache keys entries by their track id.  Concretely (S5): 120 ids
with 20 duplicates against an empty cache produce exactly 2 outbound chunk
requests of 50 ids each and 120 results in input order. -/
theorem claim_c4_batchFetch :
    (∀ (b : Backend) (cache : TrackCache) (ids : List Str),
      (∀ q, (b.tracksResp q).map (fun t => t.id) = q) →
      (∀ id t, cache.lookup id = some t → t.id = id) →
      (getTracks b cache ids).2.2
          = (chunksOf 50 ((dedupIds ids).filter (fun id => !isCached cache id))).map
              Request.tracks ∧
      (∀ q, Request.tracks q ∈ (getTracks b cache ids).2.2 → q.length ≤ 50) ∧
      (∃ ts, (getTracks b cache ids).1 = some ts ∧ ts.length = ids.length ∧
        ∀ (i : Nat) (hi : i < ids.length) (hi2 : i < ts.length),
          (ts.get ⟨i, hi2⟩).id = ids.get ⟨i, hi⟩)) ∧
    c4Ids.length = 120 ∧
    (dedupIds c4Ids).length = 100 ∧
    (getTracks echoBackend [] c4Ids).2.2
      = [Request.tracks (((List.range 100).map natId).take 50),
         Request.tracks (((List.range 100).map natId).drop 50)] ∧
    (∃ ts, (getTracks echoBackend [] c4Ids).1 = some ts ∧ ts.length = 120 ∧
      ts.map (fun t => t.id) = c4Ids) := by
  have hmain : ∀ (b : Backend) (cache : TrackCache) (ids : List Str),
      (∀ q, (b.tracksResp q).map (fun t => t.id) = q) →
      (∀ id t, cache.lookup id = some t → t.id = id) →
      (getTracks b cache ids).2.2
          = (chunksOf 50 ((dedupIds ids).filter (fun id => !isCached cache id))).map
              Request.tracks ∧
      (∀ q, Request.tracks q ∈ (getTracks b cache ids).2.2 → q.length ≤ 50) ∧
      (∃ ts, (getTracks b cache ids).1 = some ts ∧ ts.length = ids.length ∧
        ∀ (i : Nat) (hi : i < ids.length) (hi2 : i < ts.length),
          (ts.get ⟨i, hi2⟩).id = ids.get ⟨i, hi⟩) := by
    intro b cache ids hS hinv
    have hspec := refreshLoop_spec b hS (dedupIds ids).length (dedupIds ids)
      (Nat.le_refl _) cache [] (nodup_dedupIds ids)
    have hcached : ∀ id ∈ ids,
        isCached (refreshCacheForTracks b cache ids).1 id = true := by
      intro id hid
      exact hspec.2.2.1 id (mem_dedupIds.mpr hid)
    have hinv2 : ∀ id t, (refreshCacheForTracks b cache ids).1.lookup id = some t →
        t.id = id := hspec.2.2.2 hinv
    have hreq : (getTracks b cache ids).2.2
        = (chunksOf 50 ((dedupIds ids).filter (fun id => !isCached cache id))).map
            Request.tracks := by
      have h := hspec.1
      rw [List.nil_append] at h
      exact h
    refine ⟨hreq, ?_, ?_⟩
    · intro q hq
      rw [hreq] at hq
      obtain ⟨c, hcm, hce⟩ := List.mem_map.mp hq
      have hcq : c = q := by injection hce
      subst hcq
      exact chunksOf_length_le _ c hcm
    · exact lookupTracks_spec _ hinv2 ids hcached
  have hech := hmain echoBackend [] c4Ids echoBackend_ids fun id t h => nomatch h
  refine ⟨hmain, rfl, rfl, ?_, ?_⟩
  · have hF : (dedupIds c4Ids).filter (fun id => !isCached ([] : TrackCache) id)
        = (List.range 100).map natId := by rfl
    have hreq := hech.1
    rw [hF] at hreq
    have htlen : (((List.range 100).map natId).take 50).length = 50 := by
      simp
    have hdlen : (((List.range 100).map natId).drop 50).length = 50 := by
      simp
    have hsplit : chunksOf 50 ((List.range 100).map natId)
        = [((List.range 100).map natId).take 50,
           ((List.range 100).map natId).drop 50] := by
      have hA : ((List.range 100).map natId).take 50
            ++ ((List.range 100).map natId).drop 50
          = (List.range 100).map natId := List.take_append_drop _ _
      have hs1 : chunksOf 50 (((List.range 100).map natId).take 50
            ++ ((List.range 100).map natId).drop 50)
          = ((List.range 100).map natId).take 50
            :: chunksOf 50 (((List.range 100).map natId).drop 50) := by
        refine chunksOf_append ?_ (by omega) (Or.inl htlen)
        intro he
        rw [he] at htlen
        cases htlen
      have hs2 : chunksOf 50 (((List.range 100).map natId).drop 50)
          = [((List.range 100).map natId).drop 50] := by
        have hne : ((List.range 100).map natId).drop 50 ≠ [] := by
          intro he
          rw [he] at hdlen
          cases hdlen
        conv_lhs => rw [← List.append_nil (((List.range 100).map natId).drop 50)]
        rw [chunksOf_append hne (by omega) (Or.inr rfl), chunksOf_nil]
      conv_lhs => rw [← hA]
      rw [hs1, hs2]
    rw [hreq, hsplit]
    rfl
  · obtain ⟨ts, hts, hlen, hidx⟩ := hech.2.2
    refine ⟨ts, hts, by rw [hlen]; rfl, ?_⟩
    refine List.ext_get (by simp [hlen]) ?_
    intro i h1 h2
    rw [List.get_map]
    exact hidx i (by simpa using h2) (by simpa using h1)

/-- Witness for C4: the general part applied to the echo backend, the empty
cache and a single id. -/
theorem claim_c4_witness :
    (getTracks echoBackend [] ["a".toList]).2.2
      = (chunksOf 50 ((dedupIds ["a".toList]).filter
          (fun id => !isCached [] id))).map Request.tracks :=
  (claim_c4_batchFetch.1 echoBackend [] ["a".toList] echoBackend_ids
    (fun id t h => nomatch h)).1

/-- Claim C5 (amended): after `RefreshCacheForTracks` every unique
requested id the server actually returned a track for is cached; when the
server's batch responses cover all requested ids (it returns exactly the
requested tracks), every unique id is cached and the assertion in
`GetTracks` holds for every input list.  As literally stated — for servers
that omit or null some requested ids — the claim fails, see the
counterexample. -/
theorem claim_c5_refreshAsserts :
    ∀ (b : Backend) (cache : TrackCache) (ids : List Str),
      (∀ q, (b.tracksResp q).map (fun t => t.id) = q) →
      (∀ id ∈ ids, isCached (refreshCacheForTracks b cache ids).1 id = true) ∧
      ((∀ id t, cache.lookup id = some t → t.id = id) →
        ∃ ts, (getTracks b cache ids).1 = some ts) := by
  intro b cache ids hS
  have hspec := refreshLoop_spec b hS (dedupIds ids).length (dedupIds ids)
    (Nat.le_refl _) cache [] (nodup_dedupIds ids)
  have hcached : ∀ id ∈ ids,
      isCached (refreshCacheForTracks b cache ids).1 id = true := by
    intro id hid
    exact hspec.2.2.1 id (mem_dedupIds.mpr hid)
  refine ⟨hcached, ?_⟩
  intro hinv
  obtain ⟨ts, hts, _⟩ := lookupTracks_spec _ (hspec.2.2.2 hinv) ids hcached
  exact ⟨ts, hts⟩

/-- Witness for C5: the amended statement at the echo backend. -/
theorem claim_c5_witness :
    isCached (refreshCacheForTracks echoBackend [] ["a".toList]).1 ("a".toList)
      = true :=
  (claim_c5_refreshAsserts echoBackend [] ["a".toList] echoBackend_ids).1
    ("a".toList) (List.mem_singleton.mpr rfl)

/-- Counterexample to C5 as stated: against a server whose batch response
is empty, the requested id is not cached after the refresh, and `GetTracks`
hits the failed assertion (modelled as `none`). -/
theorem claim_c5_counterexample :
    isCached (refreshCacheForTracks emptyBatchBackend [] ["a".toList]).1 ("a".toList)
        = false ∧
    (getTracks emptyBatchBackend [] ["a".toList]).1 = none := by
  have h1 : refreshCacheForTracks emptyBatchBackend [] ["a".toList]
      = ([], [Request.tracks ["a".toList]]) := by
    show refreshLoop emptyBatchBackend [] (dedupIds ["a".toList]) [] = _
    rw [show dedupIds ["a".toList] = ["a".toList] from rfl]
    rw [refreshLoop, dif_neg (by decide)]
    rw [refreshLoop, dif_pos (by decide)]
    decide
  constructor
  · rw [h1]
    rfl
  · show lookupTracks (refreshCacheForTracks emptyBatchBackend [] ["a".toList]).1
        ["a".toList] = none
    rw [h1]
    rfl

/-! ## Claim C6: pagination -/

theorem playlistLoop_spec (server : Str → WebApi_PagingObject) :
    ∀ (fuel : Nat) (uri : Str) (uris : List Str),
      followNext server fuel uri = some uris →
      ∀ (tracks : List WebApi_Track) (locals : List WebApi_LocalTrack) (reqs : List Str),
        playlistLoop server fuel uri tracks locals reqs
          = some (tracks ++ (uris.map fun u => pageTracks (server u)).flatten,
                  locals ++ (uris.map fun u => pageLocals (server u)).flatten,
                  reqs ++ uris) := by
  intro fuel
  induction fuel with
  | zero =>
    intro uri uris h
    cases h
  | succ f ih =>
    intro uri uris h tracks locals reqs
    cases hnext : (server uri).next with
    | none =>
      simp only [followNext, hnext] at h
      injection h with h1
      subst h1
      simp only [playlistLoop, hnext]
      simp [pageTracks, pageLocals]
    | some nxt =>
      simp only [followNext, hnext] at h
      obtain ⟨rest, hrest, hcons⟩ := Option.map_eq_some'.mp h
      subst hcons
      simp only [playlistLoop, hnext]
      rw [ih nxt rest hrest]
      simp

/-- The playlist id and pages of scenario S6: 230 items served 100/100/30. -/
def mkTrack (n : Nat) : WebApi_Track := ⟨natId n, [], 0⟩

/-- First page of S6: items 0–99, `next = page2`. -/
def c6Page1 : WebApi_PagingObject :=
  ⟨(List.range 100).map fun n => ⟨PlaylistTrackVariant.track (mkTrack n)⟩,
    some ("page2".toList)⟩

/-- Second page of S6: items 100–199, `next = page3`. -/
def c6Page2 : WebApi_PagingObject :=
  ⟨(List.range 100).map fun n => ⟨PlaylistTrackVariant.track (mkTrack (100 + n))⟩,
    some ("page3".toList)⟩

/-- Third page of S6: items 200–229, `next = null`. -/
def c6Page3 : WebApi_PagingObject :=
  ⟨(List.range 30).map fun n => ⟨PlaylistTrackVariant.track (mkTrack (200 + n))⟩,
    none⟩

/-- The S6 server. -/
def c6Server : Str → WebApi_PagingObject := fun uri =>
  if uri = playlistTracksUri ("p".toList) then c6Page1
  else if uri = "page2".toList then c6Page2
  else if uri = "page3".toList then c6Page3
  else ⟨[], none⟩

set_option maxRecDepth 100000 in
/-- Claim C6: the pagination loop requests the built playlist URI, then the
`next` URIs verbatim until `next` is null, accumulating every page's items
in server order; every accumulated (non-local) track ends up in the track
cache; and in the S6 scenario (230 items in pages of 100, 100, 30) exactly
3 requests are made, the 230 tracks come back in server order, and the
cache is populated with all of them. -/
theorem claim_c6_pagination :
    (∀ (server : Str → WebApi_PagingObject) (fuel : Nat) (pid : Str)
        (cache : TrackCache) (uris : List Str),
      followNext server fuel (playlistTracksUri pid) = some uris →
      getTracksFromPlaylist server fuel pid cache
        = some (((uris.map fun u => pageTracks (server u)).flatten,
                 (uris.map fun u => pageLocals (server u)).flatten,
                 uris),
                cacheObjects cache ((uris.map fun u => pageTracks (server u)).flatten))) ∧
    (∀ (server : Str → WebApi_PagingObject) (fuel : Nat) (pid : Str)
        (cache : TrackCache) r,
      getTracksFromPlaylist server fuel pid cache = some r →
      ∀ t ∈ r.1.1, isCached r.2 t.id = true) ∧
    getTracksFromPlaylist c6Server 3 ("p".toList) []
      = some (((List.range 230).map mkTrack, [],
               [playlistTracksUri ("p".toList), "page2".toList, "page3".toList]),
              cacheObjects [] ((List.range 230).map mkTrack)) ∧
    ((List.range 230).map mkTrack).length = 230 := by
  refine ⟨?_, ?_, ?_, rfl⟩
  · intro server fuel pid cache uris h
    unfold getTracksFromPlaylist
    rw [playlistLoop_spec server fuel (playlistTracksUri pid) uris h [] [] []]
    simp
  · intro server fuel pid cache r h
    unfold getTracksFromPlaylist at h
    cases hk : playlistLoop server fuel (playlistTracksUri pid) [] [] [] with
    | none =>
      rw [hk] at h
      cases h
    | some p =>
      rw [hk] at h
      injection h with h1
      subst h1
      intro t ht
      exact isCached_cacheObjects_of_mem _ _ _ (List.mem_map_of_mem _ ht)
  · rfl

/-- A trivial one-page server used to instantiate C6. -/
def c6OnePage : Str → WebApi_PagingObject := fun _ => ⟨[], none⟩

/-- Witness for C6: the general pagination characterization at a one-page
server. -/
theorem claim_c6_witness :
    getTracksFromPlaylist c6OnePage 1 ("q".toList) []
      = some ((([playlistTracksUri ("q".toList)].map
                  fun u => pageTracks (c6OnePage u)).flatten,
               ([playlistTracksUri ("q".toList)].map
                  fun u => pageLocals (c6OnePage u)).flatten,
               [playlistTracksUri ("q".toList)]),
              cacheObjects [] (([playlistTracksUri ("q".toList)].map
                  fun u => pageTracks (c6OnePage u)).flatten)) :=
  claim_c6_pagination.1 c6OnePage 1 ("q".toList) [] [playlistTracksUri ("q".toList)] rfl

end Sptf
